import Mathlib

/-!
# Verification of the Stock-Portfolio-Score analytics core

This file gives a shallow embedding of the analytics core of the repository
(`app/performance.py` and `app/diversification.py`) and proves or refutes a
list of claims about it.

Modelling conventions:
* Timestamps (`pd.Timestamp`) are modelled as integers `ℤ`; only their order
  matters to the code.
* Python/NumPy floating-point numbers are modelled as rationals `ℚ`.  A float
  computation that produces a non-finite value (NaN or ±∞, which in Python
  arises only from division by zero in the code at hand) is modelled with
  `Option ℚ` (`none` = non-finite) or, where the distinction between NaN and
  ±∞ matters (the `skipna` minimum inside `max_drawdown`), with the dedicated
  type `DDVal` below.
* Python dictionaries are modelled as association lists (`List (String × _)`),
  which preserve the insertion order that Python dictionaries guarantee; the
  keys of a Python dictionary are distinct, which theorems assume where it
  matters.
* `round(x, d)` / `np.round(x, d)` both round half to even (banker's
  rounding); `roundq` below implements exactly that on `ℚ`.
-/

/-- Banker's rounding (round half to even) of a rational to an integer, the
rounding mode used by Python's `round` and NumPy's `np.round`. -/
def rhalfeven (x : ℚ) : ℤ :=
  let n := ⌊x⌋
  let r := x - n
  if r < 1/2 then n
  else if 1/2 < r then n + 1
  else if n % 2 = 0 then n else n + 1

/-- `round(x, d)` / `np.round(x, d)`: round to `d` decimal places, half to
even. -/
def roundq (d : ℕ) (x : ℚ) : ℚ :=
  (rhalfeven (x * 10 ^ d) : ℚ) / 10 ^ d

/-- Lookup in an association list (a Python dictionary); returns the first
binding of the key. -/
def alookup {α : Type} (l : List (String × α)) (k : String) : Option α :=
  (l.find? (fun p => decide (p.1 = k))).map Prod.snd

/-- `d.get(k, default)` on a Python dictionary. -/
def alookupD {α : Type} (l : List (String × α)) (k : String) (dflt : α) : α :=
  (alookup l k).getD dflt

/-- One OHLC bar; only the fields the analytics core reads are modelled
(`open`/`high`/`low`/`volume` are never used). -/
structure Bar where
  date : ℤ
  close : ℚ
deriving DecidableEq, Repr

/-- One holding record: `{'quantity': q, 'buy_price': p}`. -/
structure Holding where
  quantity : ℚ
  buy_price : ℚ
deriving DecidableEq, Repr

/-- The key-ordering relation used when sorting `(timestamp, value)` pairs. -/
def rowLE (p q : ℤ × ℚ) : Prop := p.1 ≤ q.1

instance : DecidableRel rowLE := fun p q => inferInstanceAs (Decidable (p.1 ≤ q.1))

instance : IsTotal (ℤ × ℚ) rowLE := ⟨fun p q => Int.le_total p.1 q.1⟩

instance : IsTrans (ℤ × ℚ) rowLE := ⟨fun _ _ _ h h' => le_trans h h'⟩

/--
`equity_curve_for_holding(bars, quantity, symbol)`:
builds `quantity * close` indexed by `date`, sorted ascending by date
(`df.set_index("date").sort_index()`).  The sort is stable; duplicated dates
are all kept (pandas does not deduplicate an index).  The result is a list of
`(date, value)` pairs.  The scalar multiplication by `quantity` commutes with
the index sort, so it is applied before sorting here.  A `None` bars argument
and an empty frame give an empty curve.
-/
def equity_curve_for_holding (bars : Option (List Bar)) (quantity : ℚ) :
    List (ℤ × ℚ) :=
  match bars with
  | none => []
  | some bs => List.insertionSort rowLE (bs.map (fun b => (b.date, quantity * b.close)))

/-- The timestamps (index) of a curve. -/
def curveDates (c : List (ℤ × ℚ)) : List ℤ := c.map Prod.fst

/-- The sorted, duplicate-free union of all timestamps of a list of curves:
the index produced by `pd.concat(..., axis=1)`'s outer join. -/
def dedupUnion (cs : List (List (ℤ × ℚ))) : List ℤ :=
  (List.insertionSort (· ≤ ·) ((cs.map curveDates).flatten)).dedup

/-- Reindexing a curve with a unique index onto timestamp `t`: the exact
match, or `NaN` (`none`) when `t` is not in the curve's index. -/
def obsAt (c : List (ℤ × ℚ)) (t : ℤ) : Option ℚ :=
  (c.find? (fun p => decide (p.1 = t))).map Prod.snd

/-- The value a forward-filled curve shows at timestamp `t`: the value of the
last observation at or before `t`, or `NaN` (`none`) if there is none yet. -/
def ffillAt (c : List (ℤ × ℚ)) (t : ℤ) : Option ℚ :=
  ((c.filter (fun p => decide (p.1 ≤ t))).getLast?).map Prod.snd

/-- Positional alignment: row `i` pairs the `i`-th timestamp of the common
index with the `i`-th value of every series. -/
def posRows (cs : List (List (ℤ × ℚ))) : List ℤ → ℕ → List (ℤ × List (Option ℚ))
  | [], _ => []
  | t :: ts, i =>
    (t, cs.map (fun c => (c.get? i).map Prod.snd)) :: posRows cs ts (i + 1)

/--
`pd.concat(series_list, axis=1)`: aligns the series into rows
`(timestamp, one Option value per series)`.
* If every series has the same index as the first, the alignment is
  positional (pandas' fast path; this is the only path on which a duplicated
  timestamp can survive).
* Otherwise, if every index is unique, each series is reindexed onto the
  sorted union of all timestamps (outer join).
* Otherwise pandas raises `InvalidIndexError`, which propagates.
The subsequent `.sort_index()` is the identity on both successful paths
because every equity curve is already sorted ascending.
-/
def concatAlign (cs : List (List (ℤ × ℚ))) :
    Except String (List (ℤ × List (Option ℚ))) :=
  let idx := curveDates (cs.headD [])
  if cs.all (fun c => curveDates c = idx) then
    .ok (posRows cs idx 0)
  else if cs.all (fun c => (curveDates c).Nodup) then
    .ok ((dedupUnion cs).map (fun t => (t, cs.map (fun c => obsAt c t))))
  else
    .error "InvalidIndexError"

/-- `df.ffill()`: forward-fill every column, one row at a time, carrying the
last observed value of each column. -/
def ffillRows (carry : List (Option ℚ)) :
    List (ℤ × List (Option ℚ)) → List (ℤ × List (Option ℚ))
  | [] => []
  | (t, vs) :: rest =>
    let merged := List.zipWith (fun c v => v.orElse (fun _ => c)) carry vs
    (t, merged) :: ffillRows merged rest

/-- `df.sum(axis=1, min_count=1).dropna()`: sum each row over its observed
entries; a row with no observed entry becomes NaN and is dropped. -/
def sumRows (rows : List (ℤ × List (Option ℚ))) : List (ℤ × ℚ) :=
  rows.filterMap (fun r =>
    match r.2.filterMap id with
    | [] => none
    | obs => some (r.1, obs.sum))

/-- The `series_list` built by `portfolio_timeseries`: one non-empty equity
curve per holding that has price bars. -/
def seriesList (holdings : List (String × Holding))
    (ohlc : List (String × List Bar)) : List (List (ℤ × ℚ)) :=
  holdings.filterMap (fun p =>
    match alookup ohlc p.1 with
    | none => none
    | some bars =>
      match equity_curve_for_holding (some bars) p.2.quantity with
      | [] => none
      | s => some s)

/-- `portfolio_timeseries(holdings, ohlc_map)`: the aggregated portfolio
value curve.  An `InvalidIndexError` raised by `pd.concat` propagates to the
caller (there is no `try` in this module), hence the `Except`. -/
def portfolio_timeseries (holdings : List (String × Holding))
    (ohlc : List (String × List Bar)) : Except String (List (ℤ × ℚ)) :=
  match seriesList holdings ohlc with
  | [] => .ok []
  | series_list =>
    match concatAlign series_list with
    | .error e => .error e
    | .ok rows => .ok (sumRows (ffillRows (series_list.map (fun _ => none)) rows))

/-- `invested_value(holdings)`: `Σ quantity * buy_price`. -/
def invested_value (holdings : List (String × Holding)) : ℚ :=
  (holdings.map (fun p => p.2.quantity * p.2.buy_price)).sum

/--
`daily_returns(curve)`: `curve.pct_change().dropna()` on the list of curve
values.  Each consecutive pair `(prev, cur)` yields `cur / prev - 1`.  When
`prev = 0` the float quotient is non-finite: `0/0` is NaN and is removed by
`dropna`, while `cur/0` with `cur ≠ 0` is ±∞ and is kept (`dropna` only drops
NaN); the kept non-finite value is modelled as `none`.
-/
def daily_returns (curve : List ℚ) : List (Option ℚ) :=
  (curve.zip curve.tail).filterMap (fun p =>
    if p.1 = 0 then (if p.2 = 0 then none else some none)
    else some (some (p.2 / p.1 - 1)))

/-- The arithmetic mean of a series (`Series.mean()`); the guarded uses below
never apply it to an empty series. -/
def pmean (l : List ℚ) : ℚ := l.sum / l.length

/-- The sample variance (`ddof = 1`, pandas' default for `rolling(...).std()`)
of a window; the rolling windows below always have at least 20 entries, so
the `n - 1` divisor is never zero there. -/
def sampleVar (w : List ℚ) : ℚ :=
  (w.map (fun x => (x - pmean w) ^ 2)).sum / ((w.length : ℚ) - 1)

/-- Collect the values of a list of float cells, or `none` if any cell is
non-finite. -/
def allSome (l : List (Option ℚ)) : Option (List ℚ) :=
  l.foldr (fun o acc => o.bind (fun x => acc.map (fun xs => x :: xs))) (some [])

/--
`excess.rolling(window=30, min_periods=20).std().dropna()`, parametrised by
the square-root function `sq` of float arithmetic.  At position `i` the
window holds the last `min(i+1, 30)` entries; all entries are observations
(none of them is NaN), so a value is emitted exactly when `i + 1 ≥ 20`.  The
standard deviation of a window containing a non-finite entry is NaN and is
removed by the `dropna`; this and the `min_periods` suppression are merged
into one `filterMap`.
-/
def rollingStd (sq : ℚ → ℚ) (xs : List (Option ℚ)) : List ℚ :=
  (List.range xs.length).filterMap (fun i =>
    if i + 1 < 20 then none
    else
      match allSome ((xs.take (i + 1)).drop (i + 1 - 30)) with
      | none => none
      | some w => some (sq (sampleVar w)))

/--
`sharpe_ratio(returns, risk_free_annual=0.07, periods_per_year=252)`.
The function is parametrised by
* `sq`, the square-root of float arithmetic (used for the rolling standard
  deviation and for `np.sqrt(periods_per_year)`), and
* `rf_daily`, the per-period risk-free rate
  `(1 + risk_free_annual) ** (1 / periods_per_year) - 1`, an irrational real
  number that is taken as a given rational here.
`avg_volatility` is a mean of standard deviations of all-finite windows, so
it is always finite and the `np.isfinite(avg_volatility)` test is always
true; only the `avg_volatility == 0` half of the guard remains.  When the
excess returns contain a non-finite entry (possible when the curve passed
zero), `mean_return` and hence the returned Sharpe value are non-finite
(`none`).
-/
def sharpe_ratio (sq : ℚ → ℚ) (rf_daily : ℚ) (returns : List (Option ℚ)) :
    Option ℚ :=
  match returns with
  | [] => some 0
  | _ =>
    let excess := returns.map (Option.map (fun r => r - rf_daily))
    match rollingStd sq excess with
    | [] => some 0
    | rolling_std =>
      let avg_volatility := pmean rolling_std * sq 252
      if avg_volatility = 0 then some 0
      else
        match allSome excess with
        | none => none
        | some exs => some (roundq 3 (pmean exs * 252 / avg_volatility))

/-- Running maximum of a curve (`curve.cummax()`). -/
def cummax : List ℚ → List ℚ
  | [] => []
  | x :: xs => (cummaxFrom x xs)
where
  /-- Running maximum with the maximum-so-far as accumulator. -/
  cummaxFrom (m : ℚ) : List ℚ → List ℚ
    | [] => [m]
    | x :: xs => m :: cummaxFrom (max m x) xs

/-- One cell of the drawdown series `(curve - rolling_peak) / rolling_peak`:
a finite float, NaN (`0/0`), or a signed infinity (`x/0`, `x ≠ 0`). -/
inductive DDVal where
  | fin (q : ℚ)
  | nan
  | pinf
  | ninf
deriving DecidableEq, Repr

/-- `(v - p) / p` in float arithmetic. -/
def ddCell (v p : ℚ) : DDVal :=
  if p = 0 then
    (if v = 0 then .nan else if 0 < v then .pinf else .ninf)
  else .fin ((v - p) / p)

/-- `Series.min()` with its default `skipna=True`: NaN entries are skipped
(but infinities are not); the result is NaN only when every entry is NaN. -/
def ddMin (l : List DDVal) : DDVal :=
  if l.contains DDVal.ninf then .ninf
  else
    match l.filterMap (fun d => match d with | .fin q => some q | _ => none) with
    | [] => if l.contains DDVal.pinf then .pinf else .nan
    | q :: qs => .fin (qs.foldl min q)

/--
`max_drawdown(curve)`: `((curve - curve.cummax()) / curve.cummax()).min() * 100`,
`0.0` for an empty curve.  The result is `none` when the float value is
non-finite — which happens exactly when the minimum over the drawdown cells
is non-finite (e.g. an all-zero curve makes every cell `0/0 = NaN`).
-/
def max_drawdown (curve : List ℚ) : Option ℚ :=
  match curve with
  | [] => some 0
  | _ =>
    match ddMin (curve.zipWith ddCell (cummax curve)) with
    | .fin m => some (m * 100)
    | _ => none

/-- The cost-basis rebasing of `run_performance_module`: scale the raw curve
so its first point equals `invested_value`, provided both the first point and
`invested_value` are strictly positive; otherwise keep the raw curve. -/
def rebaseCurve (vals : List ℚ) (inv : ℚ) : List ℚ :=
  if 0 < vals.headD 0 ∧ 0 < inv then
    vals.map (fun v => v * (inv / vals.headD 0))
  else vals

/-- `return_pct` as computed by `run_performance_module` (before its final
3-decimal rounding): `(last rebased value / invested_value - 1) * 100` when
`invested_value > 0`, else `0.0`. -/
def return_pct_of (vals : List ℚ) (inv : ℚ) : ℚ :=
  if 0 < inv then ((rebaseCurve vals inv).getLastD 0 / inv - 1) * 100 else 0

/-- The dictionary returned by `run_performance_module`.  The two fields that
can become non-finite floats are `Option ℚ` (`none` = NaN or ±∞). -/
structure PerfResult where
  portfolio_value : ℚ
  invested_value : ℚ
  return_pct : ℚ
  sharpe : Option ℚ
  max_drawdown : Option ℚ
deriving DecidableEq, Repr

/--
`run_performance_module(holdings, ohlc_map)`, parametrised like
`sharpe_ratio` by the float square root `sq` and the per-period risk-free
rate `rf_daily`.  An exception from `pd.concat` propagates (`Except.error`);
on every other input a dictionary is returned.
-/
def run_performance_module (sq : ℚ → ℚ) (rf_daily : ℚ)
    (holdings : List (String × Holding)) (ohlc : List (String × List Bar)) :
    Except String PerfResult :=
  match portfolio_timeseries holdings ohlc with
  | .error e => .error e
  | .ok curve_raw =>
    let inv_val := invested_value holdings
    match curve_raw with
    | [] => .ok ⟨0, roundq 2 inv_val, 0, some 0, some 0⟩
    | _ =>
      let vals := curve_raw.map Prod.snd
      let curve := rebaseCurve vals inv_val
      let port_val := curve.getLastD 0
      .ok ⟨roundq 2 port_val, roundq 2 inv_val, roundq 3 (return_pct_of vals inv_val),
           sharpe_ratio sq rf_daily (daily_returns curve),
           (max_drawdown curve).map (roundq 3)⟩

/-- One metadata record: `{'sector': ..., 'mcap': ...}`.  A symbol missing
from `meta_map` falls back to `"Unknown"` for both fields
(`meta_map.get(stock, {}).get(..., "Unknown")`). -/
structure MetaRec where
  sector : String
  mcap : String
deriving DecidableEq, Repr

/-- `portfolio_values`: `{stock: holdings[stock]["quantity"] * prices.get(stock, 0)}`
in the insertion order of `holdings`. -/
def portfolioValues (holdings : List (String × Holding))
    (prices : List (String × ℚ)) : List (String × ℚ) :=
  holdings.map (fun p => (p.1, p.2.quantity * alookupD prices p.1 0))

/-- `total_value = sum(portfolio_values.values())`. -/
def totalValue (holdings : List (String × Holding))
    (prices : List (String × ℚ)) : ℚ :=
  ((portfolioValues holdings prices).map Prod.snd).sum

/-- `weights = {s: v / total_value for s, v in portfolio_values.items()}`. -/
def weightsAssoc (holdings : List (String × Holding))
    (prices : List (String × ℚ)) : List (String × ℚ) :=
  (portfolioValues holdings prices).map
    (fun p => (p.1, p.2 / totalValue holdings prices))

/-- The list of weight values, in holdings order. -/
def weightValues (holdings : List (String × Holding))
    (prices : List (String × ℚ)) : List ℚ :=
  (weightsAssoc holdings prices).map Prod.snd

/-- `hhi = sum(w ** 2 for w in weights.values())`. -/
def hhiOf (holdings : List (String × Holding))
    (prices : List (String × ℚ)) : ℚ :=
  ((weightValues holdings prices).map (fun w => w ^ 2)).sum

/-- `np.cumsum`: the list of partial sums (same length as the input). -/
def cumsum (l : List ℚ) : List ℚ := (l.scanl (· + ·) 0).tail

/-- `d[k] = d.get(k, 0) + w` on a Python dictionary modelled as an
association list: add to an existing binding in place, or append a new one. -/
def upsert : List (String × ℚ) → String → ℚ → List (String × ℚ)
  | [], k, w => [(k, w)]
  | p :: rest, k, w =>
    if p.1 = k then (k, p.2 + w) :: rest else p :: upsert rest k w

/-- The bucket aggregation used for both the sector allocation and the
market-cap split: group the weights by a key drawn from the metadata and sum
each group, then express as percentages rounded to 2 decimals. -/
def bucketAlloc (keyOf : String → String) (weights : List (String × ℚ)) :
    List (String × ℚ) :=
  (weights.foldl (fun acc p => upsert acc (keyOf p.1) p.2) []).map
    (fun p => (p.1, roundq 2 (p.2 * 100)))

/-- `meta_map.get(stock, {}).get("sector", "Unknown")`. -/
def sectorOf (meta : List (String × MetaRec)) (s : String) : String :=
  match alookup meta s with
  | some m => m.sector
  | none => "Unknown"

/-- `meta_map.get(stock, {}).get("mcap", "Unknown")`. -/
def mcapOf (meta : List (String × MetaRec)) (s : String) : String :=
  match alookup meta s with
  | some m => m.mcap
  | none => "Unknown"

/-- The metrics dictionary returned by `run_diversification_module` on
success. -/
structure DivMetrics where
  hhi_index : ℚ
  gini_coefficient : ℚ
  top_5_concentration : ℚ
  sector_allocation : List (String × ℚ)
  market_cap_split : List (String × ℚ)
  score : ℚ
deriving DecidableEq, Repr

/--
`run_diversification_module(holdings, meta_map, prices)`.

The whole body runs inside `try: ... except Exception as e: return
{"error": str(e)}`, so the function always returns a value: either the
metrics dictionary (`Except.ok`) or the error dictionary (`Except.error`
carrying `str(e)`).  Exactly two exceptions can occur:
* the explicit `raise ValueError(...)` when the total portfolio value is 0;
* a `ZeroDivisionError` from `(hhi - 1/n) / (1 - 1/n)` in the composite
  score, raised precisely when `1 - 1/n = 0` (i.e. `n = 1`; Python raises on
  float division by zero).  Note the Gini coefficient itself guards `n > 1`,
  and the NumPy division inside it never divides by zero because
  `cumulative[-1]` is the sum of the weights, which is exactly 1.
-/
def run_diversification_module (holdings : List (String × Holding))
    (meta : List (String × MetaRec)) (prices : List (String × ℚ)) :
    Except String DivMetrics :=
  let total_value := totalValue holdings prices
  if total_value = 0 then
    .error "Total portfolio value is zero. Cannot compute weights."
  else
    let weights := weightsAssoc holdings prices
    let hhi := hhiOf holdings prices
    let sorted_weights := List.insertionSort (· ≤ ·) (weights.map Prod.snd)
    let n := sorted_weights.length
    let cumulative := cumsum sorted_weights
    let gini :=
      if 1 < n then
        ((n : ℚ) + 1 - 2 * cumulative.sum / cumulative.getLastD 0) / n
      else 0
    let top_5_concentration := (sorted_weights.reverse.take 5).sum
    let sector_allocation := bucketAlloc (sectorOf meta) weights
    let market_cap_split := bucketAlloc (mcapOf meta) weights
    if 1 - 1 / (n : ℚ) = 0 then
      .error "float division by zero"
    else
      let hhi_score := max 0 (100 * (1 - (hhi - 1 / (n : ℚ)) / (1 - 1 / (n : ℚ))))
      let gini_score := 100 * (1 - gini)
      let conc_score := max 0 (100 * (1 - top_5_concentration))
      .ok ⟨roundq 4 hhi, roundq 4 gini, roundq 2 (top_5_concentration * 100),
           sector_allocation, market_cap_split,
           roundq 2 (2/5 * hhi_score + 3/10 * gini_score + 3/10 * conc_score)⟩

/-- Strict sortedness of the timestamps of a curve. -/
def CurveSorted (c : List (ℤ × ℚ)) : Prop :=
  c.Pairwise (fun p q => p.1 < q.1)

instance : IsAntisymm ℤ (· < ·) := ⟨fun _ _ h h' => ((lt_asymm h) h').elim⟩

/-- Specification view of one output row of the aggregator at timestamp `t`:
the sum of the forward-filled values of the series that have an observation
at or before `t`, or `none` (row dropped) when no series has one. -/
def specRow (cs : List (List (ℤ × ℚ))) (t : ℤ) : Option (ℤ × ℚ) :=
  match (cs.map (fun c => ffillAt c t)).filterMap id with
  | [] => none
  | obs => some (t, obs.sum)

instance {ε α : Type} [DecidableEq ε] [DecidableEq α] :
    DecidableEq (Except ε α) := fun x y =>
  match x, y with
  | .ok a, .ok b =>
    if h : a = b then isTrue (by rw [h])
    else isFalse (fun hc => by cases hc; exact h rfl)
  | .error a, .error b =>
    if h : a = b then isTrue (by rw [h])
    else isFalse (fun hc => by cases hc; exact h rfl)
  | .ok _, .error _ => isFalse (fun hc => by cases hc)
  | .error _, .ok _ => isFalse (fun hc => by cases hc)

/-! ## Helper lemmas -/

lemma headD_map_mul (k : ℚ) (l : List ℚ) :
    (l.map (fun v => k * v)).headD 0 = k * l.headD 0 := by
  cases l <;> simp

lemma getLastD_map_comm (f : ℚ → ℚ) :
    ∀ (l : List ℚ) (d : ℚ), (l.map f).getLastD (f d) = f (l.getLastD d)
  | [], _ => rfl
  | b :: t, d => by
    rw [List.map_cons, List.getLastD_cons, List.getLastD_cons]
    exact getLastD_map_comm f t b

lemma getLastD_map_zero (f : ℚ → ℚ) (hf : f 0 = 0) (l : List ℚ) :
    (l.map f).getLastD 0 = f (l.getLastD 0) := by
  calc (l.map f).getLastD 0 = (l.map f).getLastD (f 0) := by rw [hf]
    _ = f (l.getLastD 0) := getLastD_map_comm f l 0

/-- Scaling the raw curve by `k > 0` and the invested value by `k` scales the
last point of the rebased curve by `k`. -/
lemma rebase_scale (vals : List ℚ) (inv k : ℚ) (hk : 0 < k) :
    (rebaseCurve (vals.map (fun v => k * v)) (k * inv)).getLastD 0 =
      k * (rebaseCurve vals inv).getLastD 0 := by
  have hk0 : k ≠ 0 := ne_of_gt hk
  have hpos : ∀ x : ℚ, 0 < k * x ↔ 0 < x := fun x =>
    ⟨fun h => by
      have hd := div_pos h hk
      rwa [mul_div_cancel_left₀ _ hk0] at hd,
     fun h => mul_pos hk h⟩
  unfold rebaseCurve
  have hhead : (vals.map (fun v => k * v)).headD 0 = k * vals.headD 0 :=
    headD_map_mul k vals
  have hiff : (0 < (vals.map (fun v => k * v)).headD 0 ∧ 0 < k * inv) ↔
      (0 < vals.headD 0 ∧ 0 < inv) := by
    rw [hhead, hpos, hpos]
  by_cases hc : 0 < vals.headD 0 ∧ 0 < inv
  · rw [if_pos (hiff.mpr hc), if_pos hc, hhead]
    have h0 : vals.headD 0 ≠ 0 := ne_of_gt hc.1
    rw [getLastD_map_zero _ (by ring), getLastD_map_zero _ (by ring),
        getLastD_map_zero _ (by ring)]
    set L := vals.getLastD 0 with hL
    set H := vals.headD 0 with hH
    field_simp
    ring
  · rw [if_neg (fun h => hc (hiff.mp h)), if_neg hc]
    exact getLastD_map_zero _ (by ring) vals

/-! ## Claim theorems -/

/--
Claim C2 (status: code_bug).  The claim states that a single-holding
portfolio with strictly positive current value yields the metrics dictionary
(Gini 0, defined composite score).  In fact `run_diversification_module`
computes the composite score as `(hhi - 1/n) / (1 - 1/n)` and for `n = 1` the
denominator `1 - 1/1` is zero, so Python raises `ZeroDivisionError`
("float division by zero"), which the `except` turns into the error result.
This theorem evaluates the embedded code at the failing input
`holdings = {"A": {quantity 1, buy_price 1}}, prices = {"A": 1}`.
-/
theorem c2_single_holding_gives_error_result :
    run_diversification_module [("A", ⟨1, 1⟩)] [] [("A", 1)] =
      .error "float division by zero" := by
  norm_num [run_diversification_module, totalValue, portfolioValues, alookupD,
    alookup, weightsAssoc, weightValues, hhiOf, List.find?, cumsum,
    bucketAlloc, upsert, sectorOf, mcapOf]

/--
Claim C3 (status: code_bug).  The claim states every numeric field of the
performance result is finite.  On a holding with quantity 0 and one price
bar the portfolio curve is the single point 0; `max_drawdown` then computes
`(0 - 0) / 0 = NaN` for its only drawdown cell, the skip-NaN minimum of an
all-NaN series is NaN, and NaN (modelled `none`) reaches the output
dictionary.
-/
theorem c3_zero_curve_drawdown_not_finite :
    run_performance_module (fun q => q) 0 [("A", ⟨0, 10⟩)] [("A", [⟨0, 5⟩])] =
      .ok ⟨0, 0, 0, some 0, none⟩ := by
  norm_num [run_performance_module, portfolio_timeseries, seriesList, alookup,
    equity_curve_for_holding, concatAlign, curveDates, posRows, ffillRows,
    sumRows, dedupUnion, obsAt, rowLE, List.insertionSort, List.orderedInsert,
    List.find?, List.filterMap, invested_value, rebaseCurve, return_pct_of,
    daily_returns, sharpe_ratio, rollingStd, max_drawdown, cummax,
    cummax.cummaxFrom, ddCell, ddMin, roundq, rhalfeven, allSome, pmean,
    sampleVar]
  decide

/--
Claim C4, counterexample.  The claim states the equity-curve builder keeps
only the last occurrence of a duplicated timestamp and that the aggregated
portfolio curve never has two equal timestamps.  With a single holding whose
bars carry the same timestamp twice, both occurrences survive into the
portfolio curve, whose timestamps are then `[1, 1]` — not strictly
increasing.
-/
theorem c4_counterexample_duplicate_timestamps :
    portfolio_timeseries [("A", ⟨1, 0⟩)] [("A", [⟨1, 10⟩, ⟨1, 20⟩])] =
        .ok [(1, 10), (1, 20)] ∧
      ¬ List.Pairwise (· < ·) (curveDates [((1 : ℤ), (10 : ℚ)), (1, 20)]) := by
  constructor
  · norm_num [portfolio_timeseries, seriesList, alookup,
      equity_curve_for_holding, concatAlign, curveDates, posRows, ffillRows,
      sumRows, dedupUnion, obsAt, rowLE, List.insertionSort,
      List.orderedInsert, List.find?, List.filterMap]
  · norm_num [curveDates]

/--
Claim C6 (status: confirmed).  Whenever the total current portfolio value is
zero, `run_diversification_module` returns the structured error dictionary
produced from the explicit `ValueError`; the surrounding `except Exception`
means no exception ever propagates (the function is total, returning either
the metrics or the error value).
-/
theorem c6_zero_total_value_is_structured_error
    (holdings : List (String × Holding)) (meta : List (String × MetaRec))
    (prices : List (String × ℚ)) (h : totalValue holdings prices = 0) :
    run_diversification_module holdings meta prices =
      .error "Total portfolio value is zero. Cannot compute weights." := by
  unfold run_diversification_module
  simp [h]

/-- Witness for C6 at the concrete input of an empty portfolio. -/
theorem c6_witness :
    totalValue [] [] = 0 ∧
      run_diversification_module [] [] [] =
        .error "Total portfolio value is zero. Cannot compute weights." :=
  ⟨rfl, c6_zero_total_value_is_structured_error [] [] [] rfl⟩

/--
Claim C9 (status: confirmed).  When the aggregated portfolio curve is empty,
`run_performance_module` returns, without error, zeros for
`portfolio_value`, `return_pct`, `sharpe_ratio` and `max_drawdown`, and the
(2-decimal-rounded, presentation only) invested value, which by definition is
`Σ quantity × buy_price` over all holdings.
-/
theorem c9_empty_curve_all_zero (sq : ℚ → ℚ) (rf : ℚ)
    (holdings : List (String × Holding)) (ohlc : List (String × List Bar))
    (h : portfolio_timeseries holdings ohlc = .ok []) :
    run_performance_module sq rf holdings ohlc =
        .ok ⟨0, roundq 2 (invested_value holdings), 0, some 0, some 0⟩ ∧
      invested_value holdings =
        (holdings.map (fun p => p.2.quantity * p.2.buy_price)).sum := by
  constructor
  · unfold run_performance_module
    rw [h]
  · rfl

/-- Witness for C9: one holding with no price bars at all. -/
theorem c9_witness :
    portfolio_timeseries [("A", ⟨1, 5⟩)] [] = .ok [] ∧
      run_performance_module (fun q => q) 0 [("A", ⟨1, 5⟩)] [] =
        .ok ⟨0, roundq 2 (invested_value [("A", ⟨1, 5⟩)]), 0, some 0, some 0⟩ :=
  ⟨rfl, (c9_empty_curve_all_zero (fun q => q) 0 [("A", ⟨1, 5⟩)] [] rfl).1⟩

/--
Claim C5 (status: confirmed).  Scaling every point of the raw portfolio
curve by a constant `k > 0` and the invested value by `k` leaves the
`return_pct` computed by `run_performance_module` unchanged (both before and
after its final 3-decimal rounding; `run_performance_module` reports
`roundq 3 (return_pct_of vals inv)`).
-/
theorem c5_rebasing_invariance (vals : List ℚ) (inv k : ℚ) (hk : 0 < k) :
    return_pct_of (vals.map (fun v => k * v)) (k * inv) =
        return_pct_of vals inv ∧
      roundq 3 (return_pct_of (vals.map (fun v => k * v)) (k * inv)) =
        roundq 3 (return_pct_of vals inv) := by
  have hk0 : k ≠ 0 := ne_of_gt hk
  have hmain : return_pct_of (vals.map (fun v => k * v)) (k * inv) =
      return_pct_of vals inv := by
    unfold return_pct_of
    have hiff : (0 < k * inv) ↔ (0 < inv) := by
      constructor
      · intro h
        by_contra hni
        push_neg at hni
        nlinarith
      · exact fun h => mul_pos hk h
    by_cases hinv : 0 < inv
    · rw [if_pos (hiff.mpr hinv), if_pos hinv, rebase_scale vals inv k hk]
      have hinv0 : inv ≠ 0 := ne_of_gt hinv
      field_simp
      ring
    · rw [if_neg (fun h => hinv (hiff.mp h)), if_neg hinv]
  exact ⟨hmain, by rw [hmain]⟩

/-- Witness for C5 at a concrete curve, invested value and factor. -/
theorem c5_witness :
    0 < (2 : ℚ) ∧
      return_pct_of ([1, 2].map (fun v => 2 * v)) (2 * 1) =
        return_pct_of [1, 2] 1 :=
  ⟨by norm_num, (c5_rebasing_invariance [1, 2] 1 2 (by norm_num)).1⟩

/-! ## Lemmas for the Sharpe-ratio claim -/

lemma map_some_optionMap (f : ℚ → ℚ) (l : List ℚ) :
    (l.map some).map (Option.map f) = (l.map f).map some := by
  simp [List.map_map, Function.comp]

lemma allSome_map_some (l : List ℚ) : allSome (l.map some) = some l := by
  induction l with
  | nil => rfl
  | cons a t ih =>
    simp only [allSome, List.map_cons, List.foldr_cons] at ih ⊢
    rw [ih]
    rfl

lemma take_drop_map_some (l : List ℚ) (k j : ℕ) :
    ((l.map some).take k).drop j = ((l.take k).drop j).map some := by
  rw [← List.map_take, ← List.map_drop]

/-- On an all-finite series the rolling standard deviation emits one value
per position with at least 20 observations. -/
lemma rollingStd_map_some (sq : ℚ → ℚ) (l : List ℚ) :
    rollingStd sq (l.map some) =
      (List.range l.length).filterMap (fun i =>
        if i + 1 < 20 then none
        else some (sq (sampleVar ((l.take (i + 1)).drop (i + 1 - 30))))) := by
  unfold rollingStd
  rw [List.length_map]
  apply List.filterMap_congr
  intro i _
  by_cases h : i + 1 < 20
  · rw [if_pos h, if_pos h]
  · rw [if_neg h, if_neg h, take_drop_map_some, allSome_map_some]

/-- The rolling standard deviation of an all-finite series is empty exactly
when the series has fewer than 20 entries. -/
lemma rollingStd_map_some_eq_nil_iff (sq : ℚ → ℚ) (l : List ℚ) :
    rollingStd sq (l.map some) = [] ↔ l.length < 20 := by
  rw [rollingStd_map_some, List.filterMap_eq_nil_iff]
  constructor
  · intro h
    by_contra h20
    push_neg at h20
    have h19 := h 19 (List.mem_range.mpr (by omega))
    rw [if_neg (by omega)] at h19
    exact absurd h19 (by simp)
  · intro hL i hi
    have hiL : i < l.length := List.mem_range.mp hi
    rw [if_pos (by omega)]


/-- Reduction of `sharpe_ratio` on a non-empty series. -/
lemma sharpe_ratio_cons (sq : ℚ → ℚ) (rf a : ℚ) (as : List ℚ) :
    sharpe_ratio sq rf ((a :: as).map some) =
      (match rollingStd sq (((a :: as).map (fun r => r - rf)).map some) with
       | [] => some 0
       | rolling_std =>
         if pmean rolling_std * sq 252 = 0 then some 0
         else some (roundq 3 (pmean ((a :: as).map (fun r => r - rf)) * 252 /
                              (pmean rolling_std * sq 252)))) := by
  unfold sharpe_ratio
  rw [List.map_cons]
  dsimp only
  rw [show (some a :: as.map some) = (a :: as).map some from rfl, map_some_optionMap]
  cases hR : rollingStd sq (((a :: as).map (fun r => r - rf)).map some) with
  | nil => rfl
  | cons b bs =>
    dsimp only
    by_cases hz : pmean (b :: bs) * sq 252 = 0
    · rw [if_pos hz, if_pos hz]
    · rw [if_neg hz, if_neg hz, allSome_map_some]


/--
Claim C7 (status: confirmed).  For a finite return series: `sharpe_ratio`
returns exactly 0.0 when the series is empty; the 30-period rolling standard
deviation with minimum 20 observations yields no valid point exactly when the
series has fewer than 20 entries, and then 0.0 is returned; 0.0 is also
returned when the averaged annualized volatility is zero (on finite input it
is always finite, so the `np.isfinite` half of the code's guard cannot
fire); otherwise the annualized mean excess return divided by the annualized
averaged rolling volatility is returned (rounded to 3 decimals).  The float
square root and the per-period risk-free rate are the parameters `sq` and
`rf`.
-/
theorem c7_sharpe_zero_cases_and_formula (sq : ℚ → ℚ) (rf : ℚ) (rs : List ℚ) :
    (rs = [] → sharpe_ratio sq rf (rs.map some) = some 0) ∧
    (rollingStd sq ((rs.map (fun r => r - rf)).map some) = [] ↔ rs.length < 20) ∧
    (rs.length < 20 → sharpe_ratio sq rf (rs.map some) = some 0) ∧
    (20 ≤ rs.length →
      pmean (rollingStd sq ((rs.map (fun r => r - rf)).map some)) * sq 252 = 0 →
      sharpe_ratio sq rf (rs.map some) = some 0) ∧
    (20 ≤ rs.length →
      pmean (rollingStd sq ((rs.map (fun r => r - rf)).map some)) * sq 252 ≠ 0 →
      sharpe_ratio sq rf (rs.map some) =
        some (roundq 3 (pmean (rs.map (fun r => r - rf)) * 252 /
          (pmean (rollingStd sq ((rs.map (fun r => r - rf)).map some)) * sq 252)))) := by
  refine ⟨?_, ?_, ?_, ?_, ?_⟩
  · rintro rfl
    rfl
  · rw [rollingStd_map_some_eq_nil_iff, List.length_map]
  · intro hlen
    cases rs with
    | nil => rfl
    | cons a as =>
      rw [sharpe_ratio_cons]
      have hnil : rollingStd sq (((a :: as).map (fun r => r - rf)).map some) = [] := by
        rw [rollingStd_map_some_eq_nil_iff, List.length_map]
        exact hlen
      rw [hnil]
  · intro hlen hz
    cases rs with
    | nil => rfl
    | cons a as =>
      rw [sharpe_ratio_cons]
      cases hR : rollingStd sq (((a :: as).map (fun r => r - rf)).map some) with
      | nil => rfl
      | cons b bs =>
        rw [hR] at hz
        dsimp only
        rw [if_pos hz]
  · intro hlen hz
    cases rs with
    | nil => simp at hlen
    | cons a as =>
      rw [sharpe_ratio_cons]
      cases hR : rollingStd sq (((a :: as).map (fun r => r - rf)).map some) with
      | nil =>
        have := (rollingStd_map_some_eq_nil_iff sq ((a :: as).map (fun r => r - rf))).mp hR
        rw [List.length_map] at this
        omega
      | cons b bs =>
        rw [hR] at hz
        dsimp only
        rw [if_neg hz]


/-- Witness for C7: a 20-entry return series with one nonzero entry has
nonzero averaged volatility and Sharpe ratio exactly 1 (with the identity
standing in for the square root). -/
theorem c7_witness :
    (20 ≤ ([0, 0, 0, 0, 0, 0, 0, 0, 0, 0, 0, 0, 0, 0, 0, 0, 0, 0, 0, 1] : List ℚ).length) ∧
    pmean (rollingStd (fun q => q)
        ((([0, 0, 0, 0, 0, 0, 0, 0, 0, 0, 0, 0, 0, 0, 0, 0, 0, 0, 0, 1] : List ℚ).map (fun r => r - 0)).map some)) * (fun q => q) 252 ≠ 0 ∧
    sharpe_ratio (fun q => q) 0 (([0, 0, 0, 0, 0, 0, 0, 0, 0, 0, 0, 0, 0, 0, 0, 0, 0, 0, 0, 1] : List ℚ).map some) = some 1 := by
  have hz : pmean (rollingStd (fun q => q)
      ((([0, 0, 0, 0, 0, 0, 0, 0, 0, 0, 0, 0, 0, 0, 0, 0, 0, 0, 0, 1] : List ℚ).map (fun r => r - 0)).map some)) * (fun q => q) 252 ≠ 0 := by
    norm_num [rollingStd, List.range, List.range.loop, allSome, List.filterMap,
      sampleVar, pmean]
  refine ⟨by norm_num, hz, ?_⟩
  rw [(c7_sharpe_zero_cases_and_formula (fun q => q) 0 [0, 0, 0, 0, 0, 0, 0, 0, 0, 0, 0, 0, 0, 0, 0, 0, 0, 0, 0, 1]).2.2.2.2
      (by norm_num) hz]
  norm_num [rollingStd, List.range, List.range.loop, allSome, List.filterMap,
    sampleVar, pmean, roundq, rhalfeven]


lemma sum_map_sq_sub (l : List ℚ) (c : ℚ) :
    (l.map (fun w => (w - c) ^ 2)).sum =
      (l.map (fun w => w ^ 2)).sum - 2 * c * l.sum + l.length * c ^ 2 := by
  induction l with
  | nil => simp
  | cons a t ih =>
    simp only [List.map_cons, List.sum_cons, List.length_cons, ih]
    push_cast
    ring

lemma sum_map_div (l : List ℚ) (c : ℚ) :
    (l.map (fun v => v / c)).sum = l.sum / c := by
  induction l with
  | nil => simp
  | cons a t ih => simp [ih, add_div]

lemma sum_map_const_of_eq {α : Type} (l : List α) (f : α → ℚ) (d : ℚ)
    (h : ∀ x ∈ l, f x = d) : (l.map f).sum = l.length * d := by
  induction l with
  | nil => simp
  | cons a t ih =>
    simp only [List.map_cons, List.sum_cons, List.length_cons]
    rw [h a (by simp), ih (fun x hx => h x (by simp [hx]))]
    push_cast
    ring

lemma alookupD_nonneg (prices : List (String × ℚ)) (s : String)
    (hp : ∀ pr ∈ prices, 0 ≤ pr.2) : 0 ≤ alookupD prices s 0 := by
  unfold alookupD alookup
  cases hf : prices.find? (fun p => decide (p.1 = s)) with
  | none => simp
  | some pr =>
    exact hp pr (List.mem_of_find?_eq_some hf)

/--
Claim C8 (status: confirmed).  For a portfolio with at least one holding,
data-model-conforming inputs (distinct keys, non-negative quantities and
prices) and strictly positive total value, the diversification weights sum
to exactly 1, the (unrounded) HHI computed by `run_diversification_module`
lies in `[1/n, 1]`, and it equals `1/n` exactly when all weights are equal
(to `1/n`).  The key identity is `HHI - 1/n = Σ (wᵢ - 1/n)²`.
-/
theorem c8_weights_sum_one_hhi_bounds (holdings : List (String × Holding))
    (prices : List (String × ℚ))
    (_hnd : (holdings.map Prod.fst).Nodup)
    (hne : holdings ≠ [])
    (hq : ∀ p ∈ holdings, 0 ≤ p.2.quantity)
    (hp : ∀ pr ∈ prices, 0 ≤ pr.2)
    (htot : 0 < totalValue holdings prices) :
    (weightValues holdings prices).sum = 1 ∧
    1 / (holdings.length : ℚ) ≤ hhiOf holdings prices ∧
    hhiOf holdings prices ≤ 1 ∧
    (hhiOf holdings prices = 1 / (holdings.length : ℚ) ↔
      ∀ w ∈ weightValues holdings prices, w = 1 / (holdings.length : ℚ)) := by
  have hT0 : totalValue holdings prices ≠ 0 := ne_of_gt htot
  -- the weight list and its basic facts
  have hws : weightValues holdings prices =
      ((portfolioValues holdings prices).map Prod.snd).map
        (fun v => v / totalValue holdings prices) := by
    unfold weightValues weightsAssoc
    rw [List.map_map, List.map_map]
    rfl
  have hsum1 : (weightValues holdings prices).sum = 1 := by
    rw [hws, sum_map_div]
    unfold totalValue at hT0 ⊢
    field_simp
  have hwnn : ∀ w ∈ weightValues holdings prices, 0 ≤ w := by
    intro w hw
    rw [hws] at hw
    obtain ⟨v, hv, rfl⟩ := List.mem_map.mp hw
    obtain ⟨p, hpmem, rfl⟩ := List.mem_map.mp hv
    obtain ⟨q, hq2, rfl⟩ := List.mem_map.mp hpmem
    exact div_nonneg
      (mul_nonneg (hq q hq2) (alookupD_nonneg prices q.1 hp)) (le_of_lt htot)
  have hlen : (weightValues holdings prices).length = holdings.length := by
    unfold weightValues weightsAssoc portfolioValues
    rw [List.length_map, List.length_map, List.length_map]
  have hn0 : (0 : ℚ) < (holdings.length : ℚ) := by
    have : 0 < holdings.length := List.length_pos.mpr hne
    exact_mod_cast this
  have hnne : (holdings.length : ℚ) ≠ 0 := ne_of_gt hn0
  set n : ℚ := (holdings.length : ℚ) with hndef
  set ws := weightValues holdings prices with hwsdef
  -- the key identity: hhi - 1/n = Σ (w - 1/n)²
  have hkey : (ws.map (fun w => (w - 1 / n) ^ 2)).sum =
      hhiOf holdings prices - 1 / n := by
    rw [sum_map_sq_sub, hsum1, hlen]
    unfold hhiOf
    rw [← hwsdef]
    field_simp
    ring
  have hsqnn : ∀ x ∈ ws.map (fun w => (w - 1 / n) ^ 2), 0 ≤ x := by
    intro x hx
    obtain ⟨w, _, rfl⟩ := List.mem_map.mp hx
    positivity
  have hlow : 1 / n ≤ hhiOf holdings prices := by
    have h0 : 0 ≤ (ws.map (fun w => (w - 1 / n) ^ 2)).sum := List.sum_nonneg hsqnn
    linarith [hkey ▸ h0]
  have hhigh : hhiOf holdings prices ≤ 1 := by
    unfold hhiOf
    rw [← hwsdef]
    calc (ws.map (fun w => w ^ 2)).sum ≤ (ws.map id).sum := by
          apply List.sum_le_sum
          intro w hw
          have h1 : w ≤ 1 := by
            have := List.single_le_sum hwnn w hw
            rw [hsum1] at this
            exact this
          have h0 := hwnn w hw
          simpa [sq] using mul_le_of_le_one_right h0 h1
      _ = 1 := by rw [List.map_id]; exact hsum1
  refine ⟨hsum1, hlow, hhigh, ?_, ?_⟩
  · -- hhi = 1/n → all weights = 1/n
    intro heq
    intro w hw
    have hz : (ws.map (fun w => (w - 1 / n) ^ 2)).sum = 0 := by
      rw [hkey, heq]
      ring
    have := List.all_zero_of_le_zero_le_of_sum_eq_zero hsqnn hz
      (List.mem_map.mpr ⟨w, hw, rfl⟩)
    have hw0 : w - 1 / n = 0 := by
      exact pow_eq_zero_iff (by norm_num) |>.mp this
    linarith
  · -- all weights = 1/n → hhi = 1/n
    intro hall
    unfold hhiOf
    rw [← hwsdef]
    rw [sum_map_const_of_eq ws _ ((1 / n) ^ 2)
        (fun w hw => by rw [hall w hw])]
    rw [hlen]
    field_simp
    ring


/-- Witness for C8: two holdings with weights 1/4 and 3/4. -/
theorem c8_witness :
    0 < totalValue [("A", ⟨1, 1⟩), ("B", ⟨3, 1⟩)] [("A", 1), ("B", 1)] ∧
    (weightValues [("A", ⟨1, 1⟩), ("B", ⟨3, 1⟩)] [("A", 1), ("B", 1)]).sum = 1 ∧
    1 / (([("A", (⟨1, 1⟩ : Holding)), ("B", ⟨3, 1⟩)].length : ℚ)) ≤
      hhiOf [("A", ⟨1, 1⟩), ("B", ⟨3, 1⟩)] [("A", 1), ("B", 1)] := by
  have htot : 0 < totalValue [("A", ⟨1, 1⟩), ("B", ⟨3, 1⟩)] [("A", 1), ("B", 1)] := by
    norm_num [totalValue, portfolioValues, alookupD, alookup, List.find?,
      show (("A" : String) = "B") = False by simp]
  have h := c8_weights_sum_one_hhi_bounds
    [("A", ⟨1, 1⟩), ("B", ⟨3, 1⟩)] [("A", 1), ("B", 1)]
    (by decide) (by simp) (by norm_num) (by norm_num) htot
  exact ⟨htot, h.1, h.2.1⟩


lemma mem_keys_upsert (l : List (String × ℚ)) (k : String) (w : ℚ) :
    k ∈ (upsert l k w).map Prod.fst := by
  induction l with
  | nil => simp [upsert]
  | cons p rest ih =>
    by_cases h : p.1 = k
    · simp [upsert, h]
    · simp only [upsert, if_neg h, List.map_cons, List.mem_cons]
      exact Or.inr ih

lemma mem_keys_upsert_of_mem (l : List (String × ℚ)) (j k : String) (w : ℚ)
    (hj : j ∈ l.map Prod.fst) : j ∈ (upsert l k w).map Prod.fst := by
  induction l with
  | nil => simp at hj
  | cons p rest ih =>
    rw [List.map_cons] at hj
    rcases List.mem_cons.mp hj with rfl | hj2
    · by_cases h : p.1 = k
      · simp [upsert, h]
      · simp [upsert, h]
    · by_cases h : p.1 = k
      · simp only [upsert, if_pos h, List.map_cons, List.mem_cons]
        exact Or.inr hj2
      · simp only [upsert, if_neg h, List.map_cons, List.mem_cons]
        exact Or.inr (ih hj2)

lemma mem_keys_foldl_upsert_of_mem (keyOf : String → String) :
    ∀ (ws acc : List (String × ℚ)) (j : String),
      j ∈ acc.map Prod.fst →
      j ∈ (ws.foldl (fun acc p => upsert acc (keyOf p.1) p.2) acc).map Prod.fst
  | [], _, _, hj => hj
  | p :: rest, acc, j, hj =>
    mem_keys_foldl_upsert_of_mem keyOf rest _ j
      (mem_keys_upsert_of_mem acc j (keyOf p.1) p.2 hj)

lemma mem_keys_foldl_upsert (keyOf : String → String) :
    ∀ (ws acc : List (String × ℚ)) (x : String × ℚ), x ∈ ws →
      keyOf x.1 ∈ (ws.foldl (fun acc p => upsert acc (keyOf p.1) p.2) acc).map Prod.fst
  | [], _, _, hx => by simp at hx
  | p :: rest, acc, x, hx => by
    rcases List.mem_cons.mp hx with rfl | hx2
    · exact mem_keys_foldl_upsert_of_mem keyOf rest _ (keyOf x.1)
        (mem_keys_upsert acc (keyOf x.1) x.2)
    · exact mem_keys_foldl_upsert keyOf rest _ x hx2

lemma mem_keys_bucketAlloc (keyOf : String → String) (ws : List (String × ℚ))
    (x : String × ℚ) (hx : x ∈ ws) :
    keyOf x.1 ∈ (bucketAlloc keyOf ws).map Prod.fst := by
  unfold bucketAlloc
  simpa [List.map_map, Function.comp] using mem_keys_foldl_upsert keyOf ws [] x hx

lemma one_sub_inv_ne_zero (n : ℕ) (hn : n ≠ 1) : (1 : ℚ) - 1 / (n : ℚ) ≠ 0 := by
  rcases n with _ | _ | m
  · norm_num
  · exact absurd rfl hn
  · have h2 : (2 : ℚ) ≤ ((m + 2 : ℕ) : ℚ) := by push_cast; linarith
    have hle : 1 / ((m + 2 : ℕ) : ℚ) ≤ 1 / 2 :=
      one_div_le_one_div_of_le (by norm_num) h2
    intro hc
    have : (1 : ℚ) = 1 / ((m + 2 : ℕ) : ℚ) := by linarith
    linarith


/--
Claim C10 (status: confirmed).  A holding whose symbol is absent from the
prices mapping is silently priced at 0 by `prices.get(stock, 0)`: its weight
entry is exactly 0, it still counts toward `n` (the weight list has one
entry per holding), and the module succeeds — returning a metrics dictionary
whose sector allocation and market-cap split contain the holding's buckets
(receiving its zero weight) — whenever the total portfolio value is nonzero.
(`n = 1` combined with an unpriced sole holding would force total value 0,
so the `n = 1` zero-division path is unreachable here.)
-/
theorem c10_absent_price_zero_weight (holdings : List (String × Holding))
    (meta : List (String × MetaRec)) (prices : List (String × ℚ))
    (s : String) (h : Holding)
    (hmem : (s, h) ∈ holdings)
    (habs : alookup prices s = none)
    (htot : totalValue holdings prices ≠ 0) :
    (s, (0 : ℚ)) ∈ weightsAssoc holdings prices ∧
    (weightValues holdings prices).length = holdings.length ∧
    ∃ m, run_diversification_module holdings meta prices = Except.ok m ∧
      sectorOf meta s ∈ m.sector_allocation.map Prod.fst ∧
      mcapOf meta s ∈ m.market_cap_split.map Prod.fst := by
  have hz : alookupD prices s 0 = 0 := by
    unfold alookupD
    rw [habs]
    rfl
  have h1 : (s, (0 : ℚ)) ∈ weightsAssoc holdings prices := by
    unfold weightsAssoc portfolioValues
    rw [List.map_map]
    refine List.mem_map.mpr ⟨(s, h), hmem, ?_⟩
    simp [Function.comp, hz]
  have hlen1 : holdings.length ≠ 1 := by
    intro h1len
    obtain ⟨a, ha⟩ := List.length_eq_one.mp h1len
    rw [ha] at hmem
    have has : a = (s, h) := (List.mem_singleton.mp hmem).symm
    apply htot
    rw [ha, has]
    unfold totalValue portfolioValues
    simp [hz]
  have hslen :
      (List.insertionSort (· ≤ ·) ((weightsAssoc holdings prices).map Prod.snd)).length
        = holdings.length := by
    rw [(List.perm_insertionSort (· ≤ ·) _).length_eq]
    unfold weightsAssoc portfolioValues
    rw [List.length_map, List.length_map, List.length_map]
  have hguard :
      ¬ ((1 : ℚ) - 1 / (((List.insertionSort (· ≤ ·)
          ((weightsAssoc holdings prices).map Prod.snd)).length : ℕ) : ℚ) = 0) := by
    rw [hslen]
    exact one_sub_inv_ne_zero holdings.length hlen1
  refine ⟨h1, ?_, ?_⟩
  · unfold weightValues weightsAssoc portfolioValues
    rw [List.length_map, List.length_map, List.length_map]
  · simp only [run_diversification_module]
    rw [if_neg htot, if_neg hguard]
    refine ⟨_, rfl, ?_, ?_⟩
    · exact mem_keys_bucketAlloc (sectorOf meta) _ (s, 0) h1
    · exact mem_keys_bucketAlloc (mcapOf meta) _ (s, 0) h1


/-- Witness for C10: holding `"B"` has no price; its sector and cap buckets
still appear in the successful result. -/
theorem c10_witness :
    alookup [("A", (2 : ℚ))] "B" = none ∧
    totalValue [("A", ⟨1, 1⟩), ("B", ⟨2, 3⟩)] [("A", 2)] ≠ 0 ∧
    (("B", (0 : ℚ)) ∈ weightsAssoc [("A", ⟨1, 1⟩), ("B", ⟨2, 3⟩)] [("A", 2)] ∧
     (weightValues [("A", ⟨1, 1⟩), ("B", ⟨2, 3⟩)] [("A", 2)]).length =
       ([("A", (⟨1, 1⟩ : Holding)), ("B", ⟨2, 3⟩)]).length ∧
     ∃ m, run_diversification_module [("A", ⟨1, 1⟩), ("B", ⟨2, 3⟩)]
         [("B", ⟨"IT", "Mid"⟩)] [("A", 2)] = Except.ok m ∧
       sectorOf [("B", ⟨"IT", "Mid"⟩)] "B" ∈ m.sector_allocation.map Prod.fst ∧
       mcapOf [("B", ⟨"IT", "Mid"⟩)] "B" ∈ m.market_cap_split.map Prod.fst) := by
  have habs : alookup [("A", (2 : ℚ))] "B" = none := by
    norm_num [alookup, List.find?, show (("A" : String) = "B") = False by simp]
  have htot : totalValue [("A", ⟨1, 1⟩), ("B", ⟨2, 3⟩)] [("A", 2)] ≠ 0 := by
    norm_num [totalValue, portfolioValues, alookupD, alookup, List.find?,
      show (("A" : String) = "B") = False by simp,
      show (("B" : String) = "A") = False by simp]
  exact ⟨habs, htot,
    c10_absent_price_zero_weight [("A", ⟨1, 1⟩), ("B", ⟨2, 3⟩)]
      [("B", ⟨"IT", "Mid"⟩)] [("A", 2)] "B" ⟨2, 3⟩ (by norm_num) habs htot⟩


/-! ## Lemmas for the aggregator claims -/

lemma curveSorted_of_le_nodup (c : List (ℤ × ℚ)) (hle : c.Pairwise rowLE)
    (hnd : (c.map Prod.fst).Nodup) : CurveSorted c := by
  have hne : c.Pairwise (fun p q => p.1 ≠ q.1) := List.pairwise_map.mp hnd
  exact (hle.and hne).imp (fun h => lt_of_le_of_ne h.1 h.2)

lemma equity_curve_sorted_le (bs : List Bar) (q : ℚ) :
    (equity_curve_for_holding (some bs) q).Pairwise rowLE :=
  List.sorted_insertionSort rowLE _

lemma equity_curve_dates_perm (bs : List Bar) (q : ℚ) :
    ((equity_curve_for_holding (some bs) q).map Prod.fst).Perm (bs.map Bar.date) := by
  unfold equity_curve_for_holding
  have hperm := List.perm_insertionSort rowLE
    (bs.map (fun b => (b.date, q * b.close)))
  have := hperm.map Prod.fst
  rw [List.map_map] at this
  exact this

lemma equity_curve_sorted (bs : List Bar) (q : ℚ)
    (hnd : (bs.map Bar.date).Nodup) :
    CurveSorted (equity_curve_for_holding (some bs) q) :=
  curveSorted_of_le_nodup _ (equity_curve_sorted_le bs q)
    ((equity_curve_dates_perm bs q).nodup_iff.mpr hnd)

lemma dedupUnion_sorted (cs : List (List (ℤ × ℚ))) :
    (dedupUnion cs).Pairwise (· < ·) := by
  unfold dedupUnion
  have hle : (List.insertionSort (· ≤ ·) ((cs.map curveDates).flatten)).Pairwise
      (· ≤ ·) := List.sorted_insertionSort _ _
  have hsub := List.dedup_sublist
      (List.insertionSort (· ≤ ·) ((cs.map curveDates).flatten))
  have hle2 := List.Pairwise.sublist hsub hle
  have hnd : (List.insertionSort (· ≤ ·)
      ((cs.map curveDates).flatten)).dedup.Nodup := List.nodup_dedup _
  exact (hle2.and hnd).imp (fun h => lt_of_le_of_ne h.1 h.2)

lemma mem_dedupUnion (cs : List (List (ℤ × ℚ))) (t : ℤ) :
    t ∈ dedupUnion cs ↔ ∃ c ∈ cs, t ∈ curveDates c := by
  unfold dedupUnion
  rw [List.mem_dedup, (List.perm_insertionSort _ _).mem_iff, List.mem_flatten]
  constructor
  · rintro ⟨d, hd, htd⟩
    obtain ⟨c, hc, rfl⟩ := List.mem_map.mp hd
    exact ⟨c, hc, htd⟩
  · rintro ⟨c, hc, htc⟩
    exact ⟨curveDates c, List.mem_map.mpr ⟨c, hc, rfl⟩, htc⟩

lemma sorted_lt_eq_of_mem_iff {l1 l2 : List ℤ}
    (h1 : l1.Pairwise (· < ·)) (h2 : l2.Pairwise (· < ·))
    (hm : ∀ x, x ∈ l1 ↔ x ∈ l2) : l1 = l2 := by
  have hnd1 : l1.Nodup := h1.imp ne_of_lt
  have hnd2 : l2.Nodup := h2.imp ne_of_lt
  have hperm : l1.Perm l2 := (List.perm_ext_iff_of_nodup hnd1 hnd2).mpr hm
  exact List.eq_of_perm_of_sorted hperm h1 h2


lemma ffillAt_eq_none (c : List (ℤ × ℚ)) (t : ℤ)
    (h : ∀ p ∈ c, ¬ p.1 ≤ t) : ffillAt c t = none := by
  unfold ffillAt
  rw [List.filter_eq_nil_iff.mpr (by simpa using h)]
  rfl

lemma ffillAt_of_mem (c : List (ℤ × ℚ)) (t : ℤ) (v : ℚ)
    (hs : CurveSorted c) (hmem : (t, v) ∈ c) : ffillAt c t = some v := by
  induction c with
  | nil => simp at hmem
  | cons p c' ih =>
    rcases List.mem_cons.mp hmem with rfl | hmem2
    · -- the head is the observation at t; every later entry has a later date
      unfold ffillAt
      rw [List.filter_cons_of_pos (by simp),
          List.filter_eq_nil_iff.mpr ?_]
      · rfl
      · intro q hq
        have := List.rel_of_pairwise_cons hs hq
        simp only [decide_eq_true_eq]
        omega
    · have hpt : p.1 < t := List.rel_of_pairwise_cons hs hmem2
      unfold ffillAt at ih ⊢
      rw [List.filter_cons_of_pos (by simp; omega)]
      have ihv := ih (List.Pairwise.of_cons hs) hmem2
      cases hf : List.filter (fun p => decide (p.1 ≤ t)) c' with
      | nil => rw [hf] at ihv; simp at ihv
      | cons q qs =>
        rw [hf] at ihv
        rw [List.getLast?_cons_cons]
        exact ihv

lemma ffillAt_isSome_of_earlier (c : List (ℤ × ℚ)) (t : ℤ)
    (h : ∃ p ∈ c, p.1 ≤ t) : ∃ w, ffillAt c t = some w := by
  unfold ffillAt
  obtain ⟨p, hp, hpt⟩ := h
  cases hf : List.filter (fun p => decide (p.1 ≤ t)) c with
  | nil =>
    exfalso
    have := List.filter_eq_nil_iff.mp hf p hp
    simp [hpt] at this
  | cons q qs =>
    have : (q :: qs).getLast? = some ((q :: qs).getLast (by simp)) := by
      rw [List.getLast?_eq_getLast]
    rw [this]
    exact ⟨_, rfl⟩


/-- One forward-fill step: reading a forward-filled column at `u` gives the
exact observation at `u` when there is one, and otherwise the carried value
from just before, provided no observation lies strictly between the previous
row `b` and `u`. -/
lemma orElse_ffill_step (c : List (ℤ × ℚ)) (b u : ℤ)
    (hs : CurveSorted c) (hbu : b < u)
    (hd : ∀ p ∈ c, p.1 ≤ b ∨ p.1 = u ∨ u < p.1) :
    (obsAt c u).orElse (fun _ => ffillAt c b) = ffillAt c u := by
  induction c with
  | nil => rfl
  | cons p c' ih =>
    have hs' : CurveSorted c' := List.Pairwise.of_cons hs
    have hd' : ∀ q ∈ c', q.1 ≤ b ∨ q.1 = u ∨ u < q.1 :=
      fun q hq => hd q (List.mem_cons_of_mem p hq)
    rcases hd p (List.mem_cons_self p c') with hpb | hpu | hup
    · have hpne : p.1 ≠ u := by omega
      have hple : p.1 ≤ u := by omega
      unfold obsAt ffillAt at ih ⊢
      rw [List.find?_cons_of_neg _ (by simp only [decide_eq_true_eq]; omega),
          List.filter_cons_of_pos (by simp only [decide_eq_true_eq]; omega),
          List.filter_cons_of_pos (by simp only [decide_eq_true_eq]; omega)]
      specialize ih hs' hd'
      cases hFu : List.filter (fun q => decide (q.1 ≤ u)) c' with
      | nil =>
        have hFb : List.filter (fun q => decide (q.1 ≤ b)) c' = [] := by
          rw [List.filter_eq_nil_iff] at hFu ⊢
          intro q hq
          have := hFu q hq
          simp only [decide_eq_true_eq] at this ⊢
          omega
        have hobs : List.find? (fun q => decide (q.1 = u)) c' = none := by
          rw [List.find?_eq_none]
          intro q hq hqe
          have h2 := List.filter_eq_nil_iff.mp hFu q hq
          simp only [decide_eq_true_eq] at hqe h2
          omega
        rw [hFb, hobs]
        rfl
      | cons r rs =>
        rw [List.getLast?_cons_cons]
        rw [hFu] at ih
        cases hob : List.find? (fun q => decide (q.1 = u)) c' with
        | some x =>
          rw [hob] at ih
          simpa using ih
        | none =>
          rw [hob] at ih
          simp only [Option.map_none', Option.none_orElse] at ih ⊢
          have hrmem : r ∈ List.filter (fun q => decide (q.1 ≤ u)) c' := by
            rw [hFu]
            simp
          have hrc' : r ∈ c' := List.mem_of_mem_filter hrmem
          have hru : r.1 ≤ u := by
            have := List.of_mem_filter hrmem
            simpa using this
          have hrne : r.1 ≠ u := by
            intro he
            have := List.find?_eq_none.mp hob r hrc'
            simp [he] at this
          have hrb : r.1 ≤ b := by
            rcases hd' r hrc' with h | h | h
            · exact h
            · omega
            · omega
          have hFbne : List.filter (fun q => decide (q.1 ≤ b)) c' ≠ [] := by
            intro hnil
            have := List.filter_eq_nil_iff.mp hnil r hrc'
            simp [hrb] at this
          obtain ⟨y, ys, hys⟩ := List.exists_cons_of_ne_nil hFbne
          rw [hys] at ih ⊢
          rw [List.getLast?_cons_cons]
          exact ih
    · unfold obsAt ffillAt
      rw [List.find?_cons_of_pos _ (by simp only [decide_eq_true_eq]; omega)]
      show some p.2 =
        Option.map Prod.snd (List.filter (fun q => decide (q.1 ≤ u)) (p :: c')).getLast?
      rw [List.filter_cons_of_pos (by simp only [decide_eq_true_eq]; omega),
          List.filter_eq_nil_iff.mpr ?hfu]
      case hfu =>
        intro q hq
        have := List.rel_of_pairwise_cons hs hq
        simp only [decide_eq_true_eq]
        omega
      rfl
    · unfold obsAt ffillAt
      have hall : ∀ q ∈ p :: c', u < q.1 := by
        intro q hq
        rcases List.mem_cons.mp hq with rfl | h
        · exact hup
        · exact lt_trans hup (List.rel_of_pairwise_cons hs h)
      rw [List.find?_eq_none.mpr
            (fun q hq => by have := hall q hq; simp only [decide_eq_true_eq]; omega),
          List.filter_eq_nil_iff.mpr
            (fun q hq => by have := hall q hq; simp only [decide_eq_true_eq]; omega),
          List.filter_eq_nil_iff.mpr
            (fun q hq => by have := hall q hq; simp only [decide_eq_true_eq]; omega)]
      rfl


lemma zipWith_map_same {α β γ δ : Type} (f : β → γ → δ) (g : α → β) (h : α → γ)
    (l : List α) :
    List.zipWith f (l.map g) (l.map h) = l.map (fun x => f (g x) (h x)) := by
  induction l with
  | nil => rfl
  | cons a t ih => simp [ih]

/-- Forward-filling the aligned rows turns the exact observations at each
union timestamp into the last observation at or before that timestamp,
provided every observation timestamp occurs among the rows. -/
lemma ffillRows_spec (cs : List (List (ℤ × ℚ)))
    (hsort : ∀ c ∈ cs, CurveSorted c) :
    ∀ (V : List ℤ) (b : ℤ), V.Pairwise (· < ·) → (∀ v ∈ V, b < v) →
      (∀ c ∈ cs, ∀ p ∈ c, p.1 ≤ b ∨ p.1 ∈ V) →
      ffillRows (cs.map (fun c => ffillAt c b))
          (V.map (fun t => (t, cs.map (fun c => obsAt c t)))) =
        V.map (fun t => (t, cs.map (fun c => ffillAt c t)))
  | [], _, _, _, _ => rfl
  | u :: V', b, hV, hVb, hdates => by
    have hbu : b < u := hVb u (List.mem_cons_self u V')
    have hmerge :
        List.zipWith (fun c v => v.orElse (fun _ => c))
            (cs.map (fun c => ffillAt c b)) (cs.map (fun c => obsAt c u)) =
          cs.map (fun c => ffillAt c u) := by
      rw [zipWith_map_same]
      apply List.map_congr_left
      intro c hc
      apply orElse_ffill_step c b u (hsort c hc) hbu
      intro p hp
      rcases hdates c hc p hp with h1 | h2
      · exact Or.inl h1
      · rcases List.mem_cons.mp h2 with rfl | h3
        · exact Or.inr (Or.inl rfl)
        · exact Or.inr (Or.inr (List.rel_of_pairwise_cons hV h3))
    simp only [List.map_cons, ffillRows, hmerge]
    congr 1
    apply ffillRows_spec cs hsort V' u (List.Pairwise.of_cons hV)
      (fun v hv => List.rel_of_pairwise_cons hV hv)
    intro c hc p hp
    rcases hdates c hc p hp with h1 | h2
    · exact Or.inl (by omega)
    · rcases List.mem_cons.mp h2 with rfl | h3
      · exact Or.inl le_rfl
      · exact Or.inr h3


lemma obsAt_getElem (c : List (ℤ × ℚ)) (hnd : (c.map Prod.fst).Nodup) :
    ∀ (i : ℕ), i < c.length →
      obsAt c ((c.map Prod.fst).getD i 0) = (c.get? i).map Prod.snd := by
  induction c with
  | nil => intro i hi; simp at hi
  | cons p c' ih =>
    intro i hi
    cases i with
    | zero =>
      unfold obsAt
      rw [List.find?_cons_of_pos _ (by simp)]
      rfl
    | succ i' =>
      have hi' : i' < c'.length := by simpa using hi
      have hnd' : (c'.map Prod.fst).Nodup := by
        rw [List.map_cons] at hnd
        exact hnd.of_cons
      have htmem : (c'.map Prod.fst).getD i' 0 ∈ c'.map Prod.fst := by
        rw [List.getD_eq_getElem _ _ (by simpa using hi')]
        exact List.getElem_mem _
      have hpne : p.1 ≠ (c'.map Prod.fst).getD i' 0 := by
        rw [List.map_cons] at hnd
        intro he
        exact (List.rel_of_pairwise_cons hnd htmem) he
      unfold obsAt at ih ⊢
      rw [List.map_cons, List.getD_cons_succ,
          List.find?_cons_of_neg _ (by simpa using hpne)]
      exact ih hnd' i' hi'

lemma posRows_eq_map (cs : List (List (ℤ × ℚ))) (idx : List ℤ)
    (hc : ∀ c ∈ cs, curveDates c = idx) (hnd : idx.Nodup) :
    posRows cs idx 0 = idx.map (fun t => (t, cs.map (fun c => obsAt c t))) := by
  suffices h : ∀ (ts : List ℤ) (i : ℕ), idx.drop i = ts →
      posRows cs ts i = ts.map (fun t => (t, cs.map (fun c => obsAt c t))) from
    h idx 0 (List.drop_zero idx)
  intro ts
  induction ts with
  | nil => intro i _; rfl
  | cons t ts' ihts =>
    intro i hdrop
    have hlt : i < idx.length := by
      by_contra hge
      push_neg at hge
      rw [List.drop_eq_nil_of_le hge] at hdrop
      exact List.noConfusion hdrop
    have hcons := List.drop_eq_getElem_cons hlt
    rw [hcons] at hdrop
    injection hdrop with h1 h2
    unfold posRows
    rw [ihts (i + 1) h2]
    congr 1
    rw [show t = idx[i] from h1.symm]
    congr 1
    apply List.map_congr_left
    intro c hcmem
    have hdat : c.map Prod.fst = idx := hc c hcmem
    have hclen : i < c.length := by
      have hl : (c.map Prod.fst).length = idx.length := by rw [hdat]
      rw [List.length_map] at hl
      omega
    have hidxc : (c.map Prod.fst).getD i 0 = idx[i] := by
      rw [hdat]
      exact List.getD_eq_getElem _ _ hlt
    rw [← hidxc]
    exact (obsAt_getElem c (by rw [hdat]; exact hnd) i hclen).symm


lemma curveDates_nodup_of_sorted {c : List (ℤ × ℚ)} (hs : CurveSorted c) :
    (curveDates c).Nodup :=
  (List.pairwise_map.mpr (hs.imp (fun h => ne_of_lt h)))

lemma curveDates_sorted_of_sorted {c : List (ℤ × ℚ)} (hs : CurveSorted c) :
    (curveDates c).Pairwise (· < ·) :=
  List.pairwise_map.mpr hs

lemma concatAlign_spec (cs : List (List (ℤ × ℚ))) (hne : cs ≠ [])
    (hsort : ∀ c ∈ cs, CurveSorted c) :
    concatAlign cs =
      .ok ((dedupUnion cs).map (fun t => (t, cs.map (fun c => obsAt c t)))) := by
  have hnodup : ∀ c ∈ cs, (curveDates c).Nodup :=
    fun c hc => curveDates_nodup_of_sorted (hsort c hc)
  unfold concatAlign
  by_cases hID : cs.all (fun c => decide (curveDates c = curveDates (cs.headD []))) = true
  · rw [if_pos (by simpa using hID)]
    obtain ⟨c0, rest, rfl⟩ := List.exists_cons_of_ne_nil hne
    have hall : ∀ c ∈ c0 :: rest, curveDates c = curveDates c0 := by
      intro c hc
      have := List.all_eq_true.mp hID c hc
      simpa using this
    have hidx_sorted : (curveDates c0).Pairwise (· < ·) :=
      curveDates_sorted_of_sorted (hsort c0 (List.mem_cons_self c0 rest))
    have hidx_nodup : (curveDates c0).Nodup :=
      hnodup c0 (List.mem_cons_self c0 rest)
    have hU : dedupUnion (c0 :: rest) = curveDates c0 := by
      apply sorted_lt_eq_of_mem_iff (dedupUnion_sorted _) hidx_sorted
      intro x
      rw [mem_dedupUnion]
      constructor
      · rintro ⟨c, hc, hx⟩
        rw [hall c hc] at hx
        exact hx
      · intro hx
        exact ⟨c0, List.mem_cons_self c0 rest, hx⟩
    rw [show (c0 :: rest).headD [] = c0 from rfl]
    rw [posRows_eq_map (c0 :: rest) (curveDates c0) hall hidx_nodup, hU]
  · rw [if_neg (by simpa using hID), if_pos (by
      rw [List.all_eq_true]
      intro c hc
      simpa using hnodup c hc)]

theorem portfolio_timeseries_spec (holdings : List (String × Holding))
    (ohlc : List (String × List Bar))
    (hsort : ∀ c ∈ seriesList holdings ohlc, CurveSorted c) :
    portfolio_timeseries holdings ohlc =
      .ok ((dedupUnion (seriesList holdings ohlc)).filterMap
        (specRow (seriesList holdings ohlc))) := by
  unfold portfolio_timeseries
  cases hS : seriesList holdings ohlc with
  | nil => rfl
  | cons c0 rest =>
    rw [hS] at hsort
    change (match concatAlign (c0 :: rest) with
      | Except.error e => Except.error e
      | Except.ok rows =>
        Except.ok (sumRows (ffillRows (List.map (fun _ => none) (c0 :: rest)) rows))) = _
    rw [concatAlign_spec (c0 :: rest) (by simp) hsort]
    cases hU : dedupUnion (c0 :: rest) with
    | nil => rfl
    | cons u0 U' =>
      have hUs : (u0 :: U').Pairwise (· < ·) := by
        have := dedupUnion_sorted (c0 :: rest)
        rwa [hU] at this
      have hVb : ∀ v ∈ u0 :: U', u0 - 1 < v := by
        intro v hv
        rcases List.mem_cons.mp hv with rfl | hv2
        · omega
        · have := List.rel_of_pairwise_cons hUs hv2
          omega
      have hmemU : ∀ c ∈ c0 :: rest, ∀ p ∈ c, p.1 ∈ u0 :: U' := by
        intro c hc p hp
        have : p.1 ∈ dedupUnion (c0 :: rest) :=
          (mem_dedupUnion _ _).mpr ⟨c, hc, List.mem_map.mpr ⟨p, hp, rfl⟩⟩
        rwa [hU] at this
      have hcarry : (c0 :: rest).map (fun _ => (none : Option ℚ)) =
          (c0 :: rest).map (fun c => ffillAt c (u0 - 1)) := by
        apply List.map_congr_left
        intro c hc
        refine (ffillAt_eq_none c (u0 - 1) ?_).symm
        intro p hp
        have := hVb p.1 (hmemU c hc p hp)
        omega
      change Except.ok (sumRows (ffillRows (List.map (fun _ => none) (c0 :: rest))
        (List.map (fun t => (t, List.map (fun c => obsAt c t) (c0 :: rest)))
          (u0 :: U')))) = _
      rw [hcarry,
          ffillRows_spec (c0 :: rest) hsort (u0 :: U') (u0 - 1) hUs hVb
            (fun c hc p hp => Or.inr (hmemU c hc p hp))]
      unfold sumRows
      rw [List.filterMap_map]
      rfl


lemma seriesList_pair (a b : String) (hA hB : Holding) (bsA bsB : List Bar)
    (hab : a ≠ b)
    (hneA : equity_curve_for_holding (some bsA) hA.quantity ≠ [])
    (hneB : equity_curve_for_holding (some bsB) hB.quantity ≠ []) :
    seriesList [(a, hA), (b, hB)] [(a, bsA), (b, bsB)] =
      [equity_curve_for_holding (some bsA) hA.quantity,
       equity_curve_for_holding (some bsB) hB.quantity] := by
  obtain ⟨pA, cA', hcA⟩ := List.exists_cons_of_ne_nil hneA
  obtain ⟨pB, cB', hcB⟩ := List.exists_cons_of_ne_nil hneB
  simp [seriesList, alookup, List.find?, List.filterMap, hab, hcA, hcB]


lemma specRow_fst (cs : List (List (ℤ × ℚ))) (u : ℤ) (r : ℤ × ℚ)
    (h : specRow cs u = some r) : r.1 = u := by
  unfold specRow at h
  rcases hmatch : (cs.map (fun c => ffillAt c u)).filterMap id with _ | ⟨x, xs⟩
  · rw [hmatch] at h
    exact absurd h (by simp)
  · rw [hmatch] at h
    injection h with h2
    rw [← h2]

/--
Claim C1 (status: confirmed).  For two holdings with non-empty equity curves
(whose bar timestamps are distinct within each holding, the regime in which
pandas' outer-join alignment is defined): a timestamp `t` observed only by
the first holding, where the second holding has a strictly earlier
observation, appears in the portfolio curve with value `v + w`, where `v` is
the first holding's value at `t` and `w` is the second holding's
forward-filled value — the value of its last observation before `t`.  And a
timestamp at or before which no holding has any observation never appears in
the portfolio curve (it is dropped, not emitted as zero).
-/
theorem c1_forward_fill_aggregation
    (a b : String) (hA hB : Holding) (bsA bsB : List Bar)
    (hab : a ≠ b)
    (hndA : (bsA.map Bar.date).Nodup) (hndB : (bsB.map Bar.date).Nodup)
    (hneA : equity_curve_for_holding (some bsA) hA.quantity ≠ [])
    (hneB : equity_curve_for_holding (some bsB) hB.quantity ≠ [])
    (t : ℤ) (v : ℚ)
    (hobsA : (t, v) ∈ equity_curve_for_holding (some bsA) hA.quantity)
    (hnotB : t ∉ curveDates (equity_curve_for_holding (some bsB) hB.quantity))
    (hearlier : ∃ u ∈ curveDates (equity_curve_for_holding (some bsB) hB.quantity),
      u < t) :
    (∃ w, ffillAt (equity_curve_for_holding (some bsB) hB.quantity) t = some w ∧
       ffillAt (equity_curve_for_holding (some bsB) hB.quantity) t =
         (((equity_curve_for_holding (some bsB) hB.quantity).filter
             (fun p => decide (p.1 < t))).getLast?).map Prod.snd ∧
       ∃ curve, portfolio_timeseries [(a, hA), (b, hB)] [(a, bsA), (b, bsB)] =
           .ok curve ∧ (t, v + w) ∈ curve) ∧
    (∀ t' : ℤ,
       (∀ p ∈ equity_curve_for_holding (some bsA) hA.quantity, t' < p.1) →
       (∀ p ∈ equity_curve_for_holding (some bsB) hB.quantity, t' < p.1) →
       ∀ curve, portfolio_timeseries [(a, hA), (b, hB)] [(a, bsA), (b, bsB)] =
           .ok curve → t' ∉ curveDates curve) := by
  have hsA := equity_curve_sorted bsA hA.quantity hndA
  have hsB := equity_curve_sorted bsB hB.quantity hndB
  have hS := seriesList_pair a b hA hB bsA bsB hab hneA hneB
  have hsort : ∀ c ∈ seriesList [(a, hA), (b, hB)] [(a, bsA), (b, bsB)],
      CurveSorted c := by
    rw [hS]
    intro c hc
    rcases List.mem_cons.mp hc with rfl | hc2
    · exact hsA
    · rw [List.mem_singleton.mp hc2]
      exact hsB
  have hpt := portfolio_timeseries_spec _ _ hsort
  rw [hS] at hpt
  constructor
  · obtain ⟨u, humem, hult⟩ := hearlier
    obtain ⟨p, hpB, hpu⟩ := List.mem_map.mp humem
    have hex : ∃ w,
        ffillAt (equity_curve_for_holding (some bsB) hB.quantity) t = some w :=
      ffillAt_isSome_of_earlier _ t ⟨p, hpB, by omega⟩
    obtain ⟨w, hw⟩ := hex
    have hprior : ffillAt (equity_curve_for_holding (some bsB) hB.quantity) t =
        (((equity_curve_for_holding (some bsB) hB.quantity).filter
            (fun p => decide (p.1 < t))).getLast?).map Prod.snd := by
      unfold ffillAt
      have hfe : (equity_curve_for_holding (some bsB) hB.quantity).filter
            (fun p => decide (p.1 ≤ t)) =
          (equity_curve_for_holding (some bsB) hB.quantity).filter
            (fun p => decide (p.1 < t)) := by
        apply List.filter_congr
        intro q hq
        have hqt : q.1 ≠ t := by
          intro he
          exact hnotB (List.mem_map.mpr ⟨q, hq, he⟩)
        simp only [decide_eq_decide]
        omega
      rw [hfe]
    refine ⟨w, hw, hprior, _, hpt, ?_⟩
    have htA : t ∈ curveDates (equity_curve_for_holding (some bsA) hA.quantity) :=
      List.mem_map.mpr ⟨(t, v), hobsA, rfl⟩
    have htU : t ∈ dedupUnion [equity_curve_for_holding (some bsA) hA.quantity,
        equity_curve_for_holding (some bsB) hB.quantity] :=
      (mem_dedupUnion _ t).mpr ⟨_, List.mem_cons_self _ _, htA⟩
    apply List.mem_filterMap.mpr
    refine ⟨t, htU, ?_⟩
    unfold specRow
    rw [List.map_cons, List.map_cons, List.map_nil,
        ffillAt_of_mem _ t v hsA hobsA, hw]
    show some (t, v + (w + 0)) = some (t, v + w)
    norm_num
  · intro t' hallA hallB curve hcurve
    rw [hpt] at hcurve
    injection hcurve with hcurve2
    subst hcurve2
    intro hmem
    obtain ⟨row, hrow, hfst⟩ := List.mem_map.mp hmem
    obtain ⟨u, huU, hspec⟩ := List.mem_filterMap.mp hrow
    have hru : row.1 = u := specRow_fst _ u row hspec
    obtain ⟨c, hc, hcu⟩ := (mem_dedupUnion _ u).mp huU
    obtain ⟨p, hpc, hpu⟩ := List.mem_map.mp hcu
    rcases List.mem_cons.mp hc with rfl | hc2
    · have := hallA p hpc
      omega
    · rw [List.mem_singleton.mp hc2] at hpc
      have := hallB p hpc
      omega


lemma seriesList_sorted (holdings : List (String × Holding))
    (ohlc : List (String × List Bar))
    (hnd : ∀ pr ∈ ohlc, (pr.2.map Bar.date).Nodup) :
    ∀ c ∈ seriesList holdings ohlc, CurveSorted c := by
  intro c hc
  obtain ⟨p, _, hfp⟩ := List.mem_filterMap.mp hc
  cases halk : alookup ohlc p.1 with
  | none =>
    rw [halk] at hfp
    exact absurd hfp (by simp)
  | some bars =>
    rw [halk] at hfp
    have hfp2 : (match equity_curve_for_holding (some bars) p.2.quantity with
        | [] => none
        | s => some s) = some c := hfp
    obtain ⟨pr, hfind, hpr2⟩ :=
      Option.map_eq_some'.mp halk
    have hprmem : pr ∈ ohlc := List.mem_of_find?_eq_some hfind
    have hbarsnd : (bars.map Bar.date).Nodup := by
      rw [← hpr2]
      exact hnd pr hprmem
    cases heq : equity_curve_for_holding (some bars) p.2.quantity with
    | nil =>
      rw [heq] at hfp2
      exact absurd hfp2 (by simp)
    | cons q qs =>
      rw [heq] at hfp2
      have hceq : c = q :: qs := by
        injection hfp2 with h
        exact h.symm
      rw [hceq, ← heq]
      exact equity_curve_sorted bars p.2.quantity hbarsnd

lemma map_fst_filterMap_specRow_sublist (cs : List (List (ℤ × ℚ))) :
    ∀ U : List ℤ, ((U.filterMap (specRow cs)).map Prod.fst).Sublist U
  | [] => List.Sublist.refl []
  | u :: U' => by
    rw [List.filterMap_cons]
    cases hs : specRow cs u with
    | none => exact (map_fst_filterMap_specRow_sublist cs U').cons u
    | some r =>
      rw [List.map_cons, specRow_fst cs u r hs]
      exact (map_fst_filterMap_specRow_sublist cs U').cons₂ u

/--
Claim C4, amended (status: corrected).  The equity-curve builder does NOT
deduplicate timestamps: it keeps every occurrence (the curve has exactly one
point per bar), so with duplicated bar timestamps the portfolio curve can
repeat a timestamp (see the counterexample).  When every holding's bar
timestamps are distinct, the aggregated portfolio curve is strictly
increasing in time with no two equal timestamps.
-/
theorem c4_amended_no_dedup_and_strict_when_nodup
    (holdings : List (String × Holding)) (ohlc : List (String × List Bar))
    (hnd : ∀ pr ∈ ohlc, (pr.2.map Bar.date).Nodup) :
    (∀ (bars : List Bar) (q : ℚ),
        (equity_curve_for_holding (some bars) q).length = bars.length) ∧
    ∃ curve, portfolio_timeseries holdings ohlc = .ok curve ∧
      (curveDates curve).Pairwise (· < ·) := by
  constructor
  · intro bars q
    unfold equity_curve_for_holding
    rw [(List.perm_insertionSort rowLE _).length_eq, List.length_map]
  · have hsort := seriesList_sorted holdings ohlc hnd
    refine ⟨_, portfolio_timeseries_spec holdings ohlc hsort, ?_⟩
    exact List.Pairwise.sublist
      (map_fst_filterMap_specRow_sublist (seriesList holdings ohlc) _)
      (dedupUnion_sorted (seriesList holdings ohlc))


/-- Witness for C1: holding B observes only at time 0, holding A at 0 and 2;
time 2 appears in the portfolio curve as A's value plus B's forward-filled
value. -/
theorem c1_witness :
    ((2 : ℤ), (11 : ℚ)) ∈ equity_curve_for_holding
        (some [⟨0, 10⟩, ⟨2, 11⟩]) (Holding.mk 1 0).quantity ∧
    (∃ w, ffillAt (equity_curve_for_holding (some [⟨0, 5⟩])
          (Holding.mk 1 0).quantity) 2 = some w ∧
       ffillAt (equity_curve_for_holding (some [⟨0, 5⟩]) (Holding.mk 1 0).quantity) 2 =
         (((equity_curve_for_holding (some [⟨0, 5⟩])
             (Holding.mk 1 0).quantity).filter
             (fun p => decide (p.1 < 2))).getLast?).map Prod.snd ∧
       ∃ curve, portfolio_timeseries [("A", ⟨1, 0⟩), ("B", ⟨1, 0⟩)]
           [("A", [⟨0, 10⟩, ⟨2, 11⟩]), ("B", [⟨0, 5⟩])] =
           .ok curve ∧ ((2 : ℤ), (11 : ℚ) + w) ∈ curve) := by
  have hobsA : ((2 : ℤ), (11 : ℚ)) ∈ equity_curve_for_holding
      (some [⟨0, 10⟩, ⟨2, 11⟩]) (Holding.mk 1 0).quantity := by
    norm_num [equity_curve_for_holding, List.insertionSort, List.orderedInsert,
      rowLE]
  refine ⟨hobsA, ?_⟩
  exact (c1_forward_fill_aggregation "A" "B" ⟨1, 0⟩ ⟨1, 0⟩
    [⟨0, 10⟩, ⟨2, 11⟩] [⟨0, 5⟩] (by decide) (by decide) (by decide)
    (by norm_num [equity_curve_for_holding, List.insertionSort,
      List.orderedInsert, rowLE, List.cons_ne_nil])
    (by norm_num [equity_curve_for_holding, List.insertionSort,
      List.orderedInsert, rowLE, List.cons_ne_nil])
    2 11 hobsA
    (by norm_num [equity_curve_for_holding, List.insertionSort,
      List.orderedInsert, rowLE, curveDates])
    ⟨0, by norm_num [equity_curve_for_holding, List.insertionSort,
      List.orderedInsert, rowLE, curveDates], by norm_num⟩).1

/-- Witness for the amended C4 at a holding with two distinct bar dates. -/
theorem c4_amended_witness :
    (∀ pr ∈ [("A", [(⟨1, 10⟩ : Bar), ⟨2, 20⟩])], ((pr.2.map Bar.date).Nodup)) ∧
    ((∀ (bars : List Bar) (q : ℚ),
        (equity_curve_for_holding (some bars) q).length = bars.length) ∧
     ∃ curve, portfolio_timeseries [("A", ⟨1, 0⟩)]
         [("A", [⟨1, 10⟩, ⟨2, 20⟩])] = .ok curve ∧
       (curveDates curve).Pairwise (· < ·)) :=
  ⟨by decide,
   c4_amended_no_dedup_and_strict_when_nodup [("A", ⟨1, 0⟩)]
     [("A", [⟨1, 10⟩, ⟨2, 20⟩])] (by decide)⟩
